import Mathlib

/-!
Verification of the craftip rendezvous protocol core, shallowly embedded
from the repository sources.

Conventions of the embedding:
* A Rust byte (`u8`) is a `Nat`; every byte the encoders emit is reduced
  `% 256` exactly where the Rust code performs an `as u8` / `put_u8` /
  `put_u16` truncation.
* A Rust `BytesMut` buffer is a `List Nat`; `advance`/`split_to` become
  `List.drop`/`List.take`.
* A Rust `String` is carried as its UTF-8 byte sequence (`List Nat`);
  a `&str` of hostnames is carried as its character sequence (`List Char`).
* Fallible Rust code returns `Except`/`Option`; a Rust panic (an `unwrap`
  on attacker-controlled data, an arithmetic underflow, an out-of-bounds
  `split_to`) is modelled by an explicit `panic` result constructor.
-/

/-! ## Byte-word helpers (bytes::Buf / bytes::BufMut primitives)

`put_u16` writes big-endian; bincode 1.x (the default `bincode::serialize`
configuration used by `shared/src/socket_packet.rs`) writes little-endian
fixed-width integers, `u32` enum tags and `u64` sequence lengths. -/

/-- Big-endian bytes of `x as u16`, as written by `BufMut::put_u16`. -/
def u16be (x : Nat) : List Nat := [x / 256 % 256, x % 256]

/-- Little-endian bytes of `x as u16` (bincode fixint encoding). -/
def u16le (x : Nat) : List Nat := [x % 256, x / 256 % 256]

/-- Little-endian bytes of `x as u32` (bincode enum tag encoding). -/
def u32le (x : Nat) : List Nat :=
  [x % 256, x / 256 % 256, x / 2 ^ 16 % 256, x / 2 ^ 24 % 256]

/-- Little-endian bytes of `x as u64` (bincode sequence-length encoding). -/
def u64le (x : Nat) : List Nat :=
  [x % 256, x / 2 ^ 8 % 256, x / 2 ^ 16 % 256, x / 2 ^ 24 % 256,
   x / 2 ^ 32 % 256, x / 2 ^ 40 % 256, x / 2 ^ 48 % 256, x / 2 ^ 56 % 256]

/-- Read a little-endian `u16` from the front of a buffer. -/
def readU16le : List Nat → Option (Nat × List Nat)
  | b0 :: b1 :: r => some (b0 + 256 * b1, r)
  | _ => none

/-- Read a little-endian `u32` from the front of a buffer. -/
def readU32le : List Nat → Option (Nat × List Nat)
  | b0 :: b1 :: b2 :: b3 :: r =>
      some (b0 + 256 * b1 + 2 ^ 16 * b2 + 2 ^ 24 * b3, r)
  | _ => none

/-- Read a little-endian `u64` from the front of a buffer. -/
def readU64le : List Nat → Option (Nat × List Nat)
  | b0 :: b1 :: b2 :: b3 :: b4 :: b5 :: b6 :: b7 :: r =>
      some (b0 + 256 * b1 + 2 ^ 16 * b2 + 2 ^ 24 * b3 + 2 ^ 32 * b4 +
            2 ^ 40 * b5 + 2 ^ 48 * b6 + 2 ^ 56 * b7, r)
  | _ => none

/-- Read exactly `n` raw bytes from the front of a buffer. -/
def readBytes (n : Nat) (buf : List Nat) : Option (List Nat × List Nat) :=
  if n ≤ buf.length then some (buf.take n, buf.drop n) else none

theorem readU16le_u16le (x : Nat) (r : List Nat) :
    readU16le (u16le x ++ r) = some (x % 2 ^ 16, r) := by
  simp only [u16le, List.cons_append, List.nil_append, readU16le]
  congr 1
  congr 1
  omega

theorem readU32le_u32le (x : Nat) (r : List Nat) :
    readU32le (u32le x ++ r) = some (x % 2 ^ 32, r) := by
  simp only [u32le, List.cons_append, List.nil_append, readU32le]
  congr 1
  congr 1
  omega

theorem readU64le_u64le (x : Nat) (r : List Nat) :
    readU64le (u64le x ++ r) = some (x % 2 ^ 64, r) := by
  simp only [u64le, List.cons_append, List.nil_append, readU64le]
  congr 1
  congr 1
  omega

theorem readBytes_append (n : Nat) (l r : List Nat) (h : l.length = n) :
    readBytes n (l ++ r) = some (l, r) := by
  subst h
  simp [readBytes, List.take_left, List.drop_left]

theorem u16be_length (x : Nat) : (u16be x).length = 2 := rfl

theorem u16le_length (x : Nat) : (u16le x).length = 2 := rfl

theorem u32le_length (x : Nat) : (u32le x).length = 4 := rfl

theorem u64le_length (x : Nat) : (u64le x).length = 8 := rfl

/-! ## Bit-twiddling bridge lemmas

The frame codec manipulates the 16-bit start word with `bitand`/`bitor`
against `1 << 15`; these lemmas translate those operations to arithmetic. -/

theorem and_mask15_eq_mod (x : Nat) : x &&& 32767 = x % 32768 := by
  have h := Nat.and_pow_two_sub_one_eq_mod x 15
  norm_num at h
  exact h

theorem and_bit15_of_lt (x : Nat) (h : x < 32768) : x &&& 32768 = 0 := by
  have h1 : x &&& 32768 ≤ x := Nat.and_le_left
  have h2 : (x &&& 32768) &&& 32767 = 0 := by
    rw [Nat.and_assoc]
    have hc : (32768 : Nat) &&& 32767 = 0 := by decide
    rw [hc, Nat.and_zero]
  rw [and_mask15_eq_mod] at h2
  omega

theorem testBit15_of_add (x : Nat) (h : x < 32768) :
    (x + 32768).testBit 15 = true := by
  rw [Nat.testBit_to_div_mod]
  have : (x + 32768) / 2 ^ 15 = 1 := by norm_num; omega
  rw [this]
  decide

theorem and_bit15_of_add (x : Nat) (h : x < 32768) :
    (x + 32768) &&& 32768 = (32768 : Nat) := by
  have h1 := Nat.and_two_pow (x + 32768) 15
  norm_num [testBit15_of_add x h] at h1
  exact h1

theorem lor_bit15_of_lt (x : Nat) (h : x < 32768) :
    x ||| 32768 = x + 32768 := by
  apply Nat.eq_of_testBit_eq
  intro i
  rw [Nat.testBit_lor]
  rcases lt_trichotomy i 15 with hi | hi | hi
  · have h32 : (32768 : Nat) = 2 ^ 15 := by norm_num
    have hb : (32768 : Nat).testBit i = false := by
      rw [h32, Nat.testBit_two_pow]
      simp
      omega
    rw [hb, Bool.or_false]
    rw [Nat.testBit_to_div_mod, Nat.testBit_to_div_mod]
    have hdvd : (2 : Nat) ^ 15 = 2 ^ (15 - i) * 2 ^ i := by
      rw [← pow_add]
      congr 1
      omega
    have hdiv : (x + 32768) / 2 ^ i = x / 2 ^ i + 2 ^ (15 - i) := by
      have h15 : (32768 : Nat) = 2 ^ (15 - i) * 2 ^ i := by rw [← hdvd]; norm_num
      rw [h15, Nat.add_mul_div_right _ _ (Nat.pos_pow_of_pos i (by norm_num))]
    rw [hdiv]
    have heven : (2 : Nat) ∣ 2 ^ (15 - i) := dvd_pow_self 2 (by omega)
    rcases heven with ⟨c, hc⟩
    rw [hc]
    have hmod : (x / 2 ^ i + 2 * c) % 2 = x / 2 ^ i % 2 := by omega
    rw [hmod]
  · subst hi
    have h32 : (32768 : Nat) = 2 ^ 15 := by norm_num
    have hb : (32768 : Nat).testBit 15 = true := by
      rw [h32, Nat.testBit_two_pow]
      simp
    rw [hb, testBit15_of_add x h,
      Nat.testBit_lt_two_pow (by norm_num; omega : x < 2 ^ 15)]
    rfl
  · have hxa : (x + 32768) < 2 ^ i := by
      have : (2 : Nat) ^ 16 ≤ 2 ^ i := Nat.pow_le_pow_right (by norm_num) (by omega)
      have h16 : (2 : Nat) ^ 16 = 65536 := by norm_num
      omega
    have hx : x < 2 ^ i := by omega
    rw [Nat.testBit_lt_two_pow hxa, Nat.testBit_lt_two_pow hx]
    have h32 : (32768 : Nat) = 2 ^ 15 := by norm_num
    rw [h32, Nat.testBit_two_pow]
    simp
    omega

/-! ## The SocketPacket data model (shared/src/socket_packet.rs, shared/src/proxy.rs)

`ChallengeDataType`, `SignatureDataType` and `ServerPublicKey` live in
`shared/src/crypto.rs`, which is not among the staged sources. -/

/-- Modelled from the spec: `ChallengeDataType` is the 32-byte auth
challenge (`ProxyAuthRequest{challenge[32]}`); `crypto.rs` is missing. -/
def ChallengeDataType : Type := { l : List Nat // l.length = 32 }

/-- Modelled from the spec: `SignatureDataType` is the 64-byte Ed25519
signature (`ProxyAuthResponse{signature[64]}`); `crypto.rs` is missing. -/
def SignatureDataType : Type := { l : List Nat // l.length = 64 }

/-- Modelled from the spec: `ServerPublicKey` is an Ed25519 public key,
carried as a 32-byte array; `crypto.rs` is missing. -/
def ServerPublicKey : Type := { l : List Nat // l.length = 32 }

instance : DecidableEq ChallengeDataType := fun a b =>
  decidable_of_iff (a.val = b.val) Subtype.ext_iff.symm

instance : DecidableEq SignatureDataType := fun a b =>
  decidable_of_iff (a.val = b.val) Subtype.ext_iff.symm

instance : DecidableEq ServerPublicKey := fun a b =>
  decidable_of_iff (a.val = b.val) Subtype.ext_iff.symm

/-- `proxy.rs`: `enum ProxyAuthenticator { PublicKey(ServerPublicKey) }`. -/
inductive ProxyAuthenticator
  | publicKey (key : ServerPublicKey)
deriving DecidableEq

/-- `proxy.rs`: `struct ProxyHelloPacket { version: u16, hostname: String,
auth: ProxyAuthenticator }`. The hostname is its UTF-8 byte sequence. -/
structure ProxyHelloPacket where
  version : Nat
  hostname : List Nat
  auth : ProxyAuthenticator
deriving DecidableEq

/-- `proxy.rs`: `struct ProxyConnectedResponse { version: u16 }`. -/
structure ProxyConnectedResponse where
  version : Nat
deriving DecidableEq

/-- `proxy.rs`: `struct ProxyDataPacket { client_id: u16,
data: MinecraftDataPacket }`; `MinecraftDataPacket` wraps a `Bytes`
payload, carried here as its byte list. -/
structure ProxyDataPacket where
  client_id : Nat
  data : List Nat
deriving DecidableEq

/-- `socket_packet.rs`: the `SocketPacket` control-message enum, variants
in declaration order (the order fixes the bincode `u32` tags 0..11). -/
inductive SocketPacket
  | ProxyHello (p : ProxyHelloPacket)
  | ProxyAuthRequest (c : ChallengeDataType)
  | ProxyAuthResponse (s : SignatureDataType)
  | ProxyHelloResponse (r : ProxyConnectedResponse)
  | ProxyJoin (id : Nat)
  | ProxyDisconnect (id : Nat)
  | ProxyDisconnectAck (id : Nat)
  | ProxyError (text : List Nat)
  | ProxyData (p : ProxyDataPacket)
  | ProxyPing (n : Nat)
  | ProxyPong (n : Nat)
  | Unknown
deriving DecidableEq

/-- `datatypes.rs`: `enum PacketError`. -/
inductive PacketError
  | notValid
  | notValidStringEncoding
  | notValidFirstPacket
  | notMatching
  | encodingError
  | tooLong
deriving DecidableEq

/-! ### bincode 1.x serialization of `SocketPacket`

`bincode::serialize` / `bincode::deserialize` with the default (legacy)
options: fixed-width little-endian integers, `u32` variant tags, `u64`
lengths before `String`/byte sequences, fixed-size arrays (including the
`serde_big_array` fields) as raw bytes, and trailing bytes allowed on
deserialization. UTF-8 validation of decoded strings is not modelled
(strings are carried as their byte sequences, on which serialize followed
by deserialize is the identity exactly as for valid Rust strings). -/

/-- bincode encoding of one `SocketPacket` (total: serialization of this
enum cannot fail, so the `EncodingError` arm of `encode_into` is dead). -/
def bincodeSerialize : SocketPacket → List Nat
  | .ProxyHello p =>
      u32le 0 ++ u16le p.version ++ u64le p.hostname.length ++ p.hostname ++
        (match p.auth with
          | .publicKey key => u32le 0 ++ key.val)
  | .ProxyAuthRequest c => u32le 1 ++ c.val
  | .ProxyAuthResponse s => u32le 2 ++ s.val
  | .ProxyHelloResponse r => u32le 3 ++ u16le r.version
  | .ProxyJoin id => u32le 4 ++ u16le id
  | .ProxyDisconnect id => u32le 5 ++ u16le id
  | .ProxyDisconnectAck id => u32le 6 ++ u16le id
  | .ProxyError text => u32le 7 ++ u64le text.length ++ text
  | .ProxyData p => u32le 8 ++ u16le p.client_id ++ u64le p.data.length ++ p.data
  | .ProxyPing n => u32le 9 ++ u16le n
  | .ProxyPong n => u32le 10 ++ u16le n
  | .Unknown => u32le 11

/-- Read a `u64`-length-prefixed byte sequence (bincode `String`/`Bytes`). -/
def readLenBytes (buf : List Nat) : Option (List Nat × List Nat) := do
  let (n, r) ← readU64le buf
  readBytes n r

/-- Read a 32-byte array as `ChallengeDataType`. -/
def readChallenge (buf : List Nat) : Option (ChallengeDataType × List Nat) :=
  if h : 32 ≤ buf.length then
    some (⟨buf.take 32, by simp [List.length_take]; omega⟩, buf.drop 32)
  else none

/-- Read a 64-byte array as `SignatureDataType`. -/
def readSignature (buf : List Nat) : Option (SignatureDataType × List Nat) :=
  if h : 64 ≤ buf.length then
    some (⟨buf.take 64, by simp [List.length_take]; omega⟩, buf.drop 64)
  else none

/-- Read a 32-byte array as `ServerPublicKey`. -/
def readPublicKey (buf : List Nat) : Option (ServerPublicKey × List Nat) :=
  if h : 32 ≤ buf.length then
    some (⟨buf.take 32, by simp [List.length_take]; omega⟩, buf.drop 32)
  else none

/-- bincode decoding of one `SocketPacket` from the front of a buffer
(trailing bytes allowed, as with `bincode::deserialize`'s legacy options):
`u32` tag, then the variant payload; anything else fails. -/
def bincodeDeserialize (buf : List Nat) : Option (SocketPacket × List Nat) := do
  let (tag, r) ← readU32le buf
  match tag with
  | 0 => do
      let (v, r) ← readU16le r
      let (hn, r) ← readLenBytes r
      let (atag, r) ← readU32le r
      match atag with
      | 0 => do
          let (key, r) ← readPublicKey r
          some (.ProxyHello ⟨v, hn, .publicKey key⟩, r)
      | _ => none
  | 1 => do
      let (c, r) ← readChallenge r
      some (.ProxyAuthRequest c, r)
  | 2 => do
      let (s, r) ← readSignature r
      some (.ProxyAuthResponse s, r)
  | 3 => do
      let (v, r) ← readU16le r
      some (.ProxyHelloResponse ⟨v⟩, r)
  | 4 => do
      let (id, r) ← readU16le r
      some (.ProxyJoin id, r)
  | 5 => do
      let (id, r) ← readU16le r
      some (.ProxyDisconnect id, r)
  | 6 => do
      let (id, r) ← readU16le r
      some (.ProxyDisconnectAck id, r)
  | 7 => do
      let (text, r) ← readLenBytes r
      some (.ProxyError text, r)
  | 8 => do
      let (id, r) ← readU16le r
      let (data, r) ← readLenBytes r
      some (.ProxyData ⟨id, data⟩, r)
  | 9 => do
      let (n, r) ← readU16le r
      some (.ProxyPing n, r)
  | 10 => do
      let (n, r) ← readU16le r
      some (.ProxyPong n, r)
  | 11 => some (.Unknown, r)
  | _ => none

/-- Well-formedness of the Rust values embedded as `Nat`/`List Nat`: every
`u16` field is below `2 ^ 16` and every length-prefixed sequence is shorter
than `2 ^ 64`, as the Rust types force. -/
def SocketPacket.wfB : SocketPacket → Bool
  | .ProxyHello p => decide (p.version < 2 ^ 16 ∧ p.hostname.length < 2 ^ 64)
  | .ProxyAuthRequest _ => true
  | .ProxyAuthResponse _ => true
  | .ProxyHelloResponse r => decide (r.version < 2 ^ 16)
  | .ProxyJoin id => decide (id < 2 ^ 16)
  | .ProxyDisconnect id => decide (id < 2 ^ 16)
  | .ProxyDisconnectAck id => decide (id < 2 ^ 16)
  | .ProxyError text => decide (text.length < 2 ^ 64)
  | .ProxyData p => decide (p.client_id < 2 ^ 16 ∧ p.data.length < 2 ^ 64)
  | .ProxyPing n => decide (n < 2 ^ 16)
  | .ProxyPong n => decide (n < 2 ^ 16)
  | .Unknown => true

theorem readChallenge_append (c : ChallengeDataType) (r : List Nat) :
    readChallenge (c.val ++ r) = some (c, r) := by
  have hl : (c.val ++ r).length = 32 + r.length := by simp [c.property]
  unfold readChallenge
  rw [dif_pos (by omega)]
  have ht : (c.val ++ r).take 32 = c.val := by
    have h0 := List.take_left c.val r
    rw [c.property] at h0
    exact h0
  have hd : (c.val ++ r).drop 32 = r := by
    have h0 := List.drop_left c.val r
    rw [c.property] at h0
    exact h0
  simp only [Option.some.injEq, Prod.mk.injEq]
  exact ⟨Subtype.ext ht, hd⟩

theorem readSignature_append (s : SignatureDataType) (r : List Nat) :
    readSignature (s.val ++ r) = some (s, r) := by
  have hl : (s.val ++ r).length = 64 + r.length := by simp [s.property]
  unfold readSignature
  rw [dif_pos (by omega)]
  have ht : (s.val ++ r).take 64 = s.val := by
    have h0 := List.take_left s.val r
    rw [s.property] at h0
    exact h0
  have hd : (s.val ++ r).drop 64 = r := by
    have h0 := List.drop_left s.val r
    rw [s.property] at h0
    exact h0
  simp only [Option.some.injEq, Prod.mk.injEq]
  exact ⟨Subtype.ext ht, hd⟩

theorem readPublicKey_append (k : ServerPublicKey) (r : List Nat) :
    readPublicKey (k.val ++ r) = some (k, r) := by
  have hl : (k.val ++ r).length = 32 + r.length := by simp [k.property]
  unfold readPublicKey
  rw [dif_pos (by omega)]
  have ht : (k.val ++ r).take 32 = k.val := by
    have h0 := List.take_left k.val r
    rw [k.property] at h0
    exact h0
  have hd : (k.val ++ r).drop 32 = r := by
    have h0 := List.drop_left k.val r
    rw [k.property] at h0
    exact h0
  simp only [Option.some.injEq, Prod.mk.injEq]
  exact ⟨Subtype.ext ht, hd⟩

theorem readLenBytes_append (l r : List Nat) (h : l.length < 2 ^ 64) :
    readLenBytes (u64le l.length ++ (l ++ r)) = some (l, r) := by
  simp only [readLenBytes, readU64le_u64le, Nat.mod_eq_of_lt h, Option.bind_eq_bind,
    Option.some_bind]
  exact readBytes_append _ _ _ rfl

/-- Serialization followed by deserialization is the identity on
well-formed packets, with any trailing bytes untouched. -/
theorem bincode_roundtrip (m : SocketPacket) (h : m.wfB = true) (rest : List Nat) :
    bincodeDeserialize (bincodeSerialize m ++ rest) = some (m, rest) := by
  cases m with
  | ProxyHello p =>
      obtain ⟨v, hn, auth⟩ := p
      cases auth with
      | publicKey key =>
          simp only [SocketPacket.wfB, decide_eq_true_eq] at h
          simp [bincodeSerialize, bincodeDeserialize, readU32le_u32le,
            readU16le_u16le, Nat.mod_eq_of_lt (show v < 65536 by omega),
            readLenBytes_append hn (u32le 0 ++ (key.val ++ rest)) h.2,
            readPublicKey_append]
  | ProxyAuthRequest c =>
      simp [bincodeSerialize, bincodeDeserialize, readU32le_u32le,
        readChallenge_append]
  | ProxyAuthResponse s =>
      simp [bincodeSerialize, bincodeDeserialize, readU32le_u32le,
        readSignature_append]
  | ProxyHelloResponse r =>
      obtain ⟨v⟩ := r
      simp only [SocketPacket.wfB, decide_eq_true_eq] at h
      simp [bincodeSerialize, bincodeDeserialize, readU32le_u32le,
        readU16le_u16le, Nat.mod_eq_of_lt (show v < 65536 by omega)]
  | ProxyJoin id =>
      simp only [SocketPacket.wfB, decide_eq_true_eq] at h
      simp [bincodeSerialize, bincodeDeserialize, readU32le_u32le,
        readU16le_u16le, Nat.mod_eq_of_lt (show id < 65536 by omega)]
  | ProxyDisconnect id =>
      simp only [SocketPacket.wfB, decide_eq_true_eq] at h
      simp [bincodeSerialize, bincodeDeserialize, readU32le_u32le,
        readU16le_u16le, Nat.mod_eq_of_lt (show id < 65536 by omega)]
  | ProxyDisconnectAck id =>
      simp only [SocketPacket.wfB, decide_eq_true_eq] at h
      simp [bincodeSerialize, bincodeDeserialize, readU32le_u32le,
        readU16le_u16le, Nat.mod_eq_of_lt (show id < 65536 by omega)]
  | ProxyError text =>
      simp only [SocketPacket.wfB, decide_eq_true_eq] at h
      simp [bincodeSerialize, bincodeDeserialize, readU32le_u32le,
        readLenBytes_append text rest h]
  | ProxyData p =>
      obtain ⟨id, data⟩ := p
      simp only [SocketPacket.wfB, decide_eq_true_eq] at h
      simp [bincodeSerialize, bincodeDeserialize, readU32le_u32le,
        readU16le_u16le, Nat.mod_eq_of_lt (show id < 65536 by omega),
        readLenBytes_append data rest h.2]
  | ProxyPing n =>
      simp only [SocketPacket.wfB, decide_eq_true_eq] at h
      simp [bincodeSerialize, bincodeDeserialize, readU32le_u32le,
        readU16le_u16le, Nat.mod_eq_of_lt (show n < 65536 by omega)]
  | ProxyPong n =>
      simp only [SocketPacket.wfB, decide_eq_true_eq] at h
      simp [bincodeSerialize, bincodeDeserialize, readU32le_u32le,
        readU16le_u16le, Nat.mod_eq_of_lt (show n < 65536 by omega)]
  | Unknown =>
      simp [bincodeSerialize, bincodeDeserialize, readU32le_u32le]

/-! ## The frame codec (socket_packet.rs: encode_into / decode_from) -/

/-- `protocol/src/config.rs`: `MAXIMUM_PACKET_SIZE = 1024 * 64`. -/
def MAXIMUM_PACKET_SIZE : Nat := 1024 * 64

/-- `SocketPacket::encode_into`, appending one frame to `buf`.

Fast path (`ProxyData`): `length = data.len() + 2`, start word
`(length as u16) | (1 << 15)` big-endian, then `client_id` big-endian,
then the raw payload — with no size check of any kind. Slow path: the
bincode payload behind its `length as u16` start word. The Rust
signature returns `Result<(), PacketError>`, but its only error arm maps
a `bincode::serialize` failure, which cannot happen for this enum, so
the embedding is total; `Except` is kept to state that explicitly. -/
def encode_into (p : SocketPacket) (buf : List Nat) :
    Except PacketError (List Nat) :=
  match p with
  | .ProxyData data =>
      let length := data.data.length + 2
      .ok (buf ++ u16be (length % 2 ^ 16 ||| 32768) ++ u16be data.client_id ++
        data.data)
  | _ =>
      let packet := bincodeSerialize p
      .ok (buf ++ u16be packet.length ++ packet)

/-- The bytes of one encoded frame (encode_into onto an empty buffer). -/
def encodeFrame (p : SocketPacket) : List Nat :=
  match encode_into p [] with
  | .ok b => b
  | .error _ => []

/-- Result of one `SocketPacket::decode_from` call. `needMore` is Rust's
`Ok(None)`, `ok` is `Ok(Some(_))`, `err` is `Err(_)`, and `panic` marks
the two genuine panic paths: the `bincode::deserialize(..).unwrap()` on a
malformed slow-path payload, and the fast path's `length - 2` /
`get_u16` underflow when the announced length is below 2. -/
inductive DecodeResult
  | needMore
  | ok (p : SocketPacket)
  | err (e : PacketError)
  | panic
deriving DecidableEq

/-- The payload length a buffer's first two bytes announce: the big-endian
start word with its top (data-flag) bit masked off. -/
def announcedLen (buf : List Nat) : Nat :=
  (buf.getD 0 0 * 256 + buf.getD 1 0) &&& 32767

/-- `SocketPacket::decode_from` on a buffer, returning the result and the
buffer as the call leaves it (`BytesMut` is passed `&mut`: untouched on
`Ok(None)`/`Err`, advanced past the frame on `Ok(Some(_))`).

The first two patterns are the source's `buf.len() < size_of::<u16>()`
need-more return; the two-cons pattern binds `buf[0]`/`buf[1]`, from which
`start = u16::from_be_bytes([buf[0], buf[1]])`. After `advance(2)` the
fast path's `get_u16` needs two remaining bytes (the inner match; fewer
panics, as `bytes::Buf::get_u16` does), and `length - size_of::<u16>()`
underflows — panics — when the announced length is below 2. -/
def decode_from : List Nat → DecodeResult × List Nat
  | [] => (.needMore, [])
  | [b0] => (.needMore, [b0])
  | b0 :: b1 :: t =>
      let start := b0 * 256 + b1
      let length := start &&& 32767
      if (b0 :: b1 :: t).length < length + 2 then (.needMore, b0 :: b1 :: t)
      else if MAXIMUM_PACKET_SIZE < length then (.err .tooLong, b0 :: b1 :: t)
      else
        if start &&& 32768 ≠ 0 then
          match t with
          | cid1 :: cid0 :: r1 =>
              if length < 2 then (.panic, b0 :: b1 :: t)
              else (.ok (.ProxyData ⟨cid1 * 256 + cid0, r1.take (length - 2)⟩),
                r1.drop (length - 2))
          | _ => (.panic, b0 :: b1 :: t)
        else
          match bincodeDeserialize (t.take length) with
          | some (q, _) => (.ok q, t.drop length)
          | none => (.panic, b0 :: b1 :: t)

/-- The payload length of the frame `encode_into` writes for `p`. -/
def payloadLen (p : SocketPacket) : Nat :=
  match p with
  | .ProxyData data => data.data.length + 2
  | _ => (bincodeSerialize p).length

/-- A packet is frame-safe when its payload fits the 15 usable bits of
the start word; only then does the wire format carry it faithfully. -/
def frameSafe (p : SocketPacket) : Prop := payloadLen p < 32768

instance : DecidablePred frameSafe := fun q => Nat.decLt (payloadLen q) 32768

theorem encode_into_ok (p : SocketPacket) (buf : List Nat) :
    encode_into p buf = .ok (buf ++ encodeFrame p) := by
  cases p <;> simp [encode_into, encodeFrame]

theorem encodeFrame_length (p : SocketPacket) :
    (encodeFrame p).length = 2 + payloadLen p := by
  cases p <;>
    simp [encodeFrame, encode_into, payloadLen, u16be] <;> omega

/-- The 16-bit start word `encode_into` writes for `p`. -/
def frameStartWord (p : SocketPacket) : Nat :=
  match p with
  | .ProxyData data => (data.data.length + 2) % 2 ^ 16 ||| 32768
  | _ => (bincodeSerialize p).length

/-- The payload bytes `encode_into` writes after the start word. -/
def framePayloadBytes (p : SocketPacket) : List Nat :=
  match p with
  | .ProxyData data => u16be data.client_id ++ data.data
  | _ => bincodeSerialize p

theorem encodeFrame_split (p : SocketPacket) :
    encodeFrame p = u16be (frameStartWord p) ++ framePayloadBytes p := by
  cases p <;> simp [encodeFrame, encode_into, frameStartWord, framePayloadBytes]

theorem announcedLen_u16be_append (S : Nat) (t : List Nat) :
    announcedLen (u16be S ++ t) = S % 2 ^ 16 &&& 32767 := by
  simp only [announcedLen, u16be, List.cons_append, List.getD_cons_zero,
    List.getD_cons_succ]
  congr 1
  omega

theorem announcedLen_take_u16be_append (S k : Nat) (t : List Nat) (hk : 2 ≤ k) :
    announcedLen ((u16be S ++ t).take k) = S % 2 ^ 16 &&& 32767 := by
  obtain ⟨k', rfl⟩ : ∃ k', k = k' + 2 := ⟨k - 2, by omega⟩
  simp only [u16be, List.cons_append, List.take_succ_cons, announcedLen,
    List.getD_cons_zero, List.getD_cons_succ]
  congr 1
  omega

theorem frameStartWord_masked (p : SocketPacket) (hsafe : frameSafe p) :
    frameStartWord p % 2 ^ 16 &&& 32767 = payloadLen p := by
  unfold frameSafe at hsafe
  cases p with
  | ProxyData data =>
      simp only [frameStartWord, payloadLen] at *
      rw [Nat.mod_eq_of_lt (show data.data.length + 2 < 2 ^ 16 by omega),
        lor_bit15_of_lt _ hsafe,
        Nat.mod_eq_of_lt (show data.data.length + 2 + 32768 < 2 ^ 16 by omega),
        and_mask15_eq_mod]
      omega
  | ProxyHello p => simp only [frameStartWord, payloadLen] at *
                    rw [Nat.mod_eq_of_lt (by omega), and_mask15_eq_mod]; omega
  | ProxyAuthRequest c => simp only [frameStartWord, payloadLen] at *
                          rw [Nat.mod_eq_of_lt (by omega), and_mask15_eq_mod]; omega
  | ProxyAuthResponse s => simp only [frameStartWord, payloadLen] at *
                           rw [Nat.mod_eq_of_lt (by omega), and_mask15_eq_mod]; omega
  | ProxyHelloResponse r => simp only [frameStartWord, payloadLen] at *
                            rw [Nat.mod_eq_of_lt (by omega), and_mask15_eq_mod]; omega
  | ProxyJoin id => simp only [frameStartWord, payloadLen] at *
                    rw [Nat.mod_eq_of_lt (by omega), and_mask15_eq_mod]; omega
  | ProxyDisconnect id => simp only [frameStartWord, payloadLen] at *
                          rw [Nat.mod_eq_of_lt (by omega), and_mask15_eq_mod]; omega
  | ProxyDisconnectAck id => simp only [frameStartWord, payloadLen] at *
                             rw [Nat.mod_eq_of_lt (by omega), and_mask15_eq_mod]; omega
  | ProxyError text => simp only [frameStartWord, payloadLen] at *
                       rw [Nat.mod_eq_of_lt (by omega), and_mask15_eq_mod]; omega
  | ProxyPing n => simp only [frameStartWord, payloadLen] at *
                   rw [Nat.mod_eq_of_lt (by omega), and_mask15_eq_mod]; omega
  | ProxyPong n => simp only [frameStartWord, payloadLen] at *
                   rw [Nat.mod_eq_of_lt (by omega), and_mask15_eq_mod]; omega
  | Unknown => simp only [frameStartWord, payloadLen] at *
               rw [Nat.mod_eq_of_lt (by omega), and_mask15_eq_mod]; omega

/-- Whenever fewer bytes are buffered than the announced frame needs,
`decode_from` reports need-more and leaves the buffer untouched. -/
theorem decode_from_needMore (buf : List Nat)
    (h : buf.length < 2 + announcedLen buf) :
    decode_from buf = (.needMore, buf) := by
  rcases buf with _ | ⟨b0, _ | ⟨b1, t⟩⟩
  · rfl
  · rfl
  · simp only [announcedLen, List.getD_cons_zero, List.getD_cons_succ,
      List.length_cons] at h
    simp only [decode_from]
    rw [if_pos (by simp only [List.length_cons]; omega)]

theorem decode_from_slow (ser rest : List Nat) (p : SocketPacket) (l2 : List Nat)
    (hlt : ser.length < 32768) (hdes : bincodeDeserialize ser = some (p, l2)) :
    decode_from (u16be ser.length ++ (ser ++ rest)) = (.ok p, rest) := by
  show decode_from (ser.length / 256 % 256 :: ser.length % 256 ::
    (ser ++ rest)) = _
  simp only [decode_from]
  have hstart : ser.length / 256 % 256 * 256 + ser.length % 256 = ser.length := by
    omega
  rw [hstart, and_mask15_eq_mod, Nat.mod_eq_of_lt hlt]
  rw [if_neg (by simp only [List.length_cons, List.length_append]; omega),
    if_neg (by simp only [MAXIMUM_PACKET_SIZE]; omega)]
  rw [and_bit15_of_lt _ hlt]
  rw [if_neg (by simp)]
  rw [List.take_left, hdes]
  simp only [List.drop_left]

theorem decode_from_fast (id : Nat) (data rest : List Nat) (hid : id < 2 ^ 16)
    (hlen : data.length + 2 < 32768) :
    decode_from (u16be ((data.length + 2) % 2 ^ 16 ||| 32768) ++
      (u16be id ++ (data ++ rest))) = (.ok (.ProxyData ⟨id, data⟩), rest) := by
  have hL : (data.length + 2) % 2 ^ 16 = data.length + 2 :=
    Nat.mod_eq_of_lt (by omega)
  rw [hL, lor_bit15_of_lt _ hlen]
  show decode_from ((data.length + 2 + 32768) / 256 % 256 ::
    (data.length + 2 + 32768) % 256 ::
    (id / 256 % 256 :: id % 256 :: (data ++ rest))) = _
  simp only [decode_from]
  have hstart : (data.length + 2 + 32768) / 256 % 256 * 256 +
      (data.length + 2 + 32768) % 256 = data.length + 2 + 32768 := by omega
  rw [hstart, and_mask15_eq_mod]
  have hmod : (data.length + 2 + 32768) % 32768 = data.length + 2 := by omega
  rw [hmod]
  rw [if_neg (by simp only [List.length_cons, List.length_append]; omega),
    if_neg (by simp only [MAXIMUM_PACKET_SIZE]; omega)]
  rw [and_bit15_of_add _ hlen]
  rw [if_pos (by omega)]
  rw [if_neg (by omega)]
  have hcid : id / 256 % 256 * 256 + id % 256 = id := by omega
  have htake : data.length + 2 - 2 = data.length := by omega
  rw [hcid, htake, List.take_left, List.drop_left]

/-- Decoding an encoded frame at the head of a buffer yields exactly the
encoded packet and consumes exactly the frame. -/
theorem decode_from_encodeFrame (p : SocketPacket) (hwf : p.wfB = true)
    (hsafe : frameSafe p) (rest : List Nat) :
    decode_from (encodeFrame p ++ rest) = (.ok p, rest) := by
  have hser : bincodeDeserialize (bincodeSerialize p) = some (p, []) := by
    have h0 := bincode_roundtrip p hwf []
    rwa [List.append_nil] at h0
  unfold frameSafe payloadLen at hsafe
  cases p with
  | ProxyData d =>
      obtain ⟨id, data⟩ := d
      simp only [SocketPacket.wfB, decide_eq_true_eq] at hwf
      simp only [encodeFrame, encode_into, List.nil_append, List.append_assoc]
      exact decode_from_fast id data rest hwf.1 (by simpa using hsafe)
  | ProxyHello q =>
      simp only [encodeFrame, encode_into, List.nil_append, List.append_assoc]
      exact decode_from_slow _ rest _ [] (by simpa using hsafe) hser
  | ProxyAuthRequest c =>
      simp only [encodeFrame, encode_into, List.nil_append, List.append_assoc]
      exact decode_from_slow _ rest _ [] (by simpa using hsafe) hser
  | ProxyAuthResponse s =>
      simp only [encodeFrame, encode_into, List.nil_append, List.append_assoc]
      exact decode_from_slow _ rest _ [] (by simpa using hsafe) hser
  | ProxyHelloResponse r =>
      simp only [encodeFrame, encode_into, List.nil_append, List.append_assoc]
      exact decode_from_slow _ rest _ [] (by simpa using hsafe) hser
  | ProxyJoin id =>
      simp only [encodeFrame, encode_into, List.nil_append, List.append_assoc]
      exact decode_from_slow _ rest _ [] (by simpa using hsafe) hser
  | ProxyDisconnect id =>
      simp only [encodeFrame, encode_into, List.nil_append, List.append_assoc]
      exact decode_from_slow _ rest _ [] (by simpa using hsafe) hser
  | ProxyDisconnectAck id =>
      simp only [encodeFrame, encode_into, List.nil_append, List.append_assoc]
      exact decode_from_slow _ rest _ [] (by simpa using hsafe) hser
  | ProxyError text =>
      simp only [encodeFrame, encode_into, List.nil_append, List.append_assoc]
      exact decode_from_slow _ rest _ [] (by simpa using hsafe) hser
  | ProxyPing n =>
      simp only [encodeFrame, encode_into, List.nil_append, List.append_assoc]
      exact decode_from_slow _ rest _ [] (by simpa using hsafe) hser
  | ProxyPong n =>
      simp only [encodeFrame, encode_into, List.nil_append, List.append_assoc]
      exact decode_from_slow _ rest _ [] (by simpa using hsafe) hser
  | Unknown =>
      simp only [encodeFrame, encode_into, List.nil_append, List.append_assoc]
      exact decode_from_slow _ rest _ [] (by simpa using hsafe) hser

/-- A strict prefix of one encoded frame always decodes to need-more. -/
theorem decode_from_take_frame (p : SocketPacket) (hsafe : frameSafe p)
    (k : Nat) (hk : k < (encodeFrame p).length) :
    decode_from ((encodeFrame p).take k) =
      (.needMore, (encodeFrame p).take k) := by
  apply decode_from_needMore
  rw [encodeFrame_length] at hk
  have hlen : ((encodeFrame p).take k).length ≤ k := by
    rw [List.length_take]
    omega
  by_cases hk2 : k < 2
  · omega
  · have h1 : announcedLen ((encodeFrame p).take k) = payloadLen p := by
      rw [encodeFrame_split, announcedLen_take_u16be_append _ _ _ (by omega)]
      exact frameStartWord_masked p hsafe
    omega

theorem drop_two_cons (a b : Nat) (l : List Nat) (n : Nat) (h : 2 ≤ n) :
    (a :: b :: l).drop n = l.drop (n - 2) := by
  obtain ⟨m, rfl⟩ : ∃ m, n = m + 2 := ⟨n - 2, by omega⟩
  simp [List.drop_succ_cons]

/-- A successful `decode_from` consumes exactly the two length bytes plus
the announced payload, and what remains is exactly the buffer's tail. -/
theorem decode_from_ok_consumed (buf : List Nat) (p : SocketPacket)
    (rest : List Nat) (h : decode_from buf = (.ok p, rest)) :
    2 + announcedLen buf ≤ buf.length ∧
      rest = buf.drop (2 + announcedLen buf) := by
  rcases buf with _ | ⟨b0, _ | ⟨b1, t⟩⟩
  · simp [decode_from] at h
  · simp [decode_from] at h
  · have hann : announcedLen (b0 :: b1 :: t) = b0 * 256 + b1 &&& 32767 := by
      simp [announcedLen]
    simp only [decode_from] at h
    rw [hann]
    split at h
    · simp at h
    · split at h
      · simp at h
      · split at h
        · split at h
          · split at h
            · simp at h
            · simp only [Prod.mk.injEq, DecodeResult.ok.injEq] at h
              simp only [List.length_cons] at *
              refine ⟨by omega, ?_⟩
              rw [← h.2,
                drop_two_cons _ _ _ _ (show 2 ≤ 2 + (b0 * 256 + b1 &&& 32767)
                  by omega)]
              have he : 2 + (b0 * 256 + b1 &&& 32767) - 2 =
                  b0 * 256 + b1 &&& 32767 := by omega
              rw [he, drop_two_cons _ _ _ _ (by omega)]
          · simp at h
        · split at h
          · simp only [Prod.mk.injEq, DecodeResult.ok.injEq] at h
            simp only [List.length_cons] at *
            refine ⟨by omega, ?_⟩
            rw [← h.2, drop_two_cons _ _ _ _ (by omega)]
            have he : 2 + (b0 * 256 + b1 &&& 32767) - 2 =
                b0 * 256 + b1 &&& 32767 := by omega
            rw [he]
          · simp at h

/-- A successful decode strictly shrinks the buffer by at least the two
length bytes. -/
theorem decode_from_ok_shrinks (buf : List Nat) (p : SocketPacket)
    (rest : List Nat) (h : decode_from buf = (.ok p, rest)) :
    rest.length + 2 ≤ buf.length := by
  obtain ⟨hle, hrest⟩ := decode_from_ok_consumed buf p rest h
  subst hrest
  rw [List.length_drop]
  omega

/-! ## Decoding a whole byte stream

The codec's driver (`Framed` with `PacketCodec`, mirrored by the repo's
`partial_decoding` test) calls `decode_from` repeatedly until it reports
need-more, an error, or — in the embedding — a panic. -/

/-- How a run of repeated `decode_from` calls ends. -/
inductive StreamEnd
  | moreNeeded
  | errored (e : PacketError)
  | panicked
deriving DecidableEq

/-- Repeated decoding with explicit fuel; each successful step consumes at
least two bytes, so `buf.length + 1` fuel always suffices (the zero-fuel
marker is unreachable from `decodeStream`, see `decodeLoop_fuel`). -/
def decodeLoop : Nat → List Nat → List SocketPacket × StreamEnd × List Nat
  | 0, buf => ([], .panicked, buf)
  | fuel + 1, buf =>
      match decode_from buf with
      | (.ok p, rest) =>
          let r := decodeLoop fuel rest
          (p :: r.1, r.2)
      | (.needMore, b) => ([], .moreNeeded, b)
      | (.err e, b) => ([], .errored e, b)
      | (.panic, b) => ([], .panicked, b)

/-- Decode every complete frame at the front of a buffer: the decoded
packets, how the run ended, and the leftover bytes. -/
def decodeStream (buf : List Nat) : List SocketPacket × StreamEnd × List Nat :=
  decodeLoop (buf.length + 1) buf

/-- Fuel does not matter as long as it exceeds the buffer length. -/
theorem decodeLoop_fuel (f : Nat) : ∀ (g : Nat) (buf : List Nat),
    buf.length < f → buf.length < g → decodeLoop f buf = decodeLoop g buf := by
  induction f with
  | zero => intro g buf hf _; omega
  | succ f ih =>
      intro g buf hf hg
      cases g with
      | zero => omega
      | succ g =>
          simp only [decodeLoop]
          rcases hd : decode_from buf with ⟨r, b⟩
          cases r with
          | ok p =>
              have hs := decode_from_ok_shrinks buf p b hd
              simp only [hd]
              rw [ih g b (by omega) (by omega)]
          | needMore => simp only [hd]
          | err e => simp only [hd]
          | panic => simp only [hd]

/-- The bytes of a sequence of messages, each encoded with `encode_into`
onto the growing buffer. -/
def encodeStream : List SocketPacket → List Nat
  | [] => []
  | m :: ms => encodeFrame m ++ encodeStream ms

/-- The whole-frame size of one message on the wire. -/
def frameSize (p : SocketPacket) : Nat := 2 + payloadLen p

/-- The messages whose frames lie wholly within the first `k` bytes of the
encoded stream. -/
def framesContained : List SocketPacket → Nat → List SocketPacket
  | [], _ => []
  | m :: ms, k =>
      if frameSize m ≤ k then m :: framesContained ms (k - frameSize m)
      else []

theorem decodeStream_take (msgs : List SocketPacket)
    (hall : ∀ m ∈ msgs, m.wfB = true ∧ frameSafe m) :
    ∀ k : Nat, k ≤ (encodeStream msgs).length →
      (decodeStream ((encodeStream msgs).take k)).1 = framesContained msgs k := by
  induction msgs with
  | nil =>
      intro k hk
      simp only [encodeStream, List.take_nil, framesContained]
      rfl
  | cons m ms ih =>
      intro k hk
      have hm := hall m (List.mem_cons_self m ms)
      have hms : ∀ q ∈ ms, q.wfB = true ∧ frameSafe q := fun q hq =>
        hall q (List.mem_cons_of_mem m hq)
      have hF : (encodeFrame m).length = frameSize m := by
        rw [encodeFrame_length]; rfl
      by_cases hcase : frameSize m ≤ k
      · have htake : (encodeStream (m :: ms)).take k =
            encodeFrame m ++ (encodeStream ms).take (k - frameSize m) := by
          simp only [encodeStream]
          rw [List.take_append_eq_append_take, List.take_of_length_le (by omega),
            hF]
        rw [htake]
        have hdec := decode_from_encodeFrame m hm.1 hm.2
          ((encodeStream ms).take (k - frameSize m))
        simp only [decodeStream, decodeLoop, hdec]
        simp only [framesContained, if_pos hcase]
        have hlen2 : ((encodeStream ms).take (k - frameSize m)).length <
            (encodeFrame m ++ (encodeStream ms).take (k - frameSize m)).length := by
          rw [List.length_append, hF]
          have := frameSize m
          simp only [frameSize]
          omega
        rw [decodeLoop_fuel _ _ _ (by omega)
          (Nat.lt_succ_of_le (Nat.le_refl _))]
        have hk2 : k - frameSize m ≤ (encodeStream ms).length := by
          simp only [encodeStream, List.length_append] at hk
          omega
        have := ih hms (k - frameSize m) hk2
        simp only [decodeStream] at this
        rw [this]
      · have htake : (encodeStream (m :: ms)).take k = (encodeFrame m).take k := by
          simp only [encodeStream]
          rw [List.take_append_of_le_length (by omega)]
        rw [htake]
        have hdec := decode_from_take_frame m hm.2 k (by omega)
        simp only [decodeStream, decodeLoop, hdec]
        simp only [framesContained, if_neg hcase]

/-! ## Oversized frames: the 15-bit length field wraps

A frame whose payload would need bit 15 of the start word is announced as
`payload mod 32768`; decoding then goes down the fast path with a bogus
tiny length. For the boundary case (announced length 0) the fast path's
`length - 2` underflows: a panic. -/

/-- Any buffer whose start word is exactly `0x8000` (data flag set,
announced length 0) drives `decode_from` into the underflow panic. -/
theorem decode_from_start32768 (s0 s1 : Nat) (t : List Nat) :
    decode_from (128 :: 0 :: s0 :: s1 :: t) =
      (.panic, 128 :: 0 :: s0 :: s1 :: t) := by
  simp only [decode_from, List.length_cons]
  rw [show (128 * 256 + 0 : Nat) &&& 32767 = 0 from by decide]
  rw [show (128 * 256 + 0 : Nat) &&& 32768 = 32768 from by decide]
  rw [if_neg (by omega), if_neg (by simp only [MAXIMUM_PACKET_SIZE]; omega),
    if_pos (by omega)]
  simp

theorem replicate_32756_serial_shape (c : Nat) :
    encodeFrame (.ProxyError (List.replicate 32756 c)) =
      128 :: 0 :: 7 :: 0 :: (0 :: 0 :: (u64le 32756 ++ List.replicate 32756 c)) := by
  have hlen : (bincodeSerialize (.ProxyError (List.replicate 32756 c))).length
      = 32768 := by
    simp only [bincodeSerialize, List.length_append, u32le_length, u64le_length,
      List.length_replicate]
  simp only [encodeFrame, encode_into, List.nil_append]
  rw [hlen]
  simp only [bincodeSerialize, List.length_replicate]
  rw [show u16be 32768 = [128, 0] from by norm_num [u16be],
    show u32le 7 = [7, 0, 0, 0] from by norm_num [u32le]]
  simp only [List.cons_append, List.nil_append]

theorem replicate_32766_data_shape :
    encodeFrame (.ProxyData ⟨0, List.replicate 32766 0⟩) =
      128 :: 0 :: 0 :: 0 :: List.replicate 32766 0 := by
  simp only [encodeFrame, encode_into, List.nil_append, List.length_replicate]
  rw [show ((32766 : Nat) + 2) % 2 ^ 16 ||| 32768 = 32768 from by decide]
  rw [show u16be 32768 = [128, 0] from by norm_num [u16be],
    show u16be 0 = [0, 0] from by norm_num [u16be]]
  simp only [List.cons_append, List.nil_append]

/-! ## Claims C1 to C5: the frame codec -/

/-- Claim C1 (as stated, refuted at a concrete input): encoding
`ProxyError` with a 32 756-byte text makes the bincode payload exactly
32 768 bytes long, so the start word's top bit — the data flag — is set
by the length itself; decoding takes the fast path with announced
length 0 and panics instead of returning the original message. -/
theorem C1_roundtrip_counterexample :
    (decode_from (encodeFrame
        (.ProxyError (List.replicate 32756 97)))).1 = DecodeResult.panic ∧
    ((decode_from (encodeFrame (.ProxyError (List.replicate 32756 97)))).1 ==
        DecodeResult.ok (.ProxyError (List.replicate 32756 97))) = false := by
  rw [replicate_32756_serial_shape, decode_from_start32768]
  exact ⟨rfl, rfl⟩

/-- Claim C1 (amended): for every well-formed control message whose
payload fits the 15 usable bits of the length word (which covers every
variant the claim lists, under that size bound), decoding the buffer
`encode_into` produced yields exactly the message and consumes it all. -/
theorem C1_roundtrip_amended (m : SocketPacket) (hwf : m.wfB = true)
    (hsafe : frameSafe m) :
    decode_from (encodeFrame m) = (.ok m, []) := by
  have h := decode_from_encodeFrame m hwf hsafe []
  rwa [List.append_nil] at h

/-- Witness for C1 at a concrete input: a `ProxyPing`. -/
theorem C1_roundtrip_witness :
    (SocketPacket.ProxyPing 7).wfB = true ∧ frameSafe (.ProxyPing 7) ∧
      decode_from (encodeFrame (.ProxyPing 7)) = (.ok (.ProxyPing 7), []) :=
  ⟨by decide, by decide, C1_roundtrip_amended _ (by decide) (by decide)⟩

/-- Claim C2 (as stated, refuted at a concrete input): a fast-path payload
of 32 766 bytes is within the claimed 65 533-byte bound, yet
`length = 32 768` truncated to the 15-bit field announces length 0 and
decoding panics; the frame is corrupted, not round-tripped, and
`encode_into` raised no error when producing it. -/
theorem C2_fastpath_counterexample :
    (List.replicate 32766 0).length ≤ 65533 ∧
    encode_into (.ProxyData ⟨0, List.replicate 32766 0⟩) [] =
      .ok ([] ++ encodeFrame (.ProxyData ⟨0, List.replicate 32766 0⟩)) ∧
    (decode_from (encodeFrame
        (.ProxyData ⟨0, List.replicate 32766 0⟩))).1 = DecodeResult.panic ∧
    ((decode_from (encodeFrame (.ProxyData ⟨0, List.replicate 32766 0⟩))).1 ==
        DecodeResult.ok (.ProxyData ⟨0, List.replicate 32766 0⟩)) = false := by
  refine ⟨by simp only [List.length_replicate]; omega, encode_into_ok _ _,
    ?_, ?_⟩ <;>
    rw [replicate_32766_data_shape, decode_from_start32768]
  rfl

/-- Claim C2 (amended): the fast-path roundtrip holds exactly up to
32 765 payload bytes (length word: 15 usable bits, minus the 2-byte
client id), and `encode_into` never reports an error for any larger
fast-path payload — there is no size check at all. -/
theorem C2_fastpath_amended :
    (∀ (id : Nat) (bytes : List Nat), id < 2 ^ 16 → bytes.length ≤ 32765 →
      decode_from (encodeFrame (.ProxyData ⟨id, bytes⟩)) =
        (.ok (.ProxyData ⟨id, bytes⟩), [])) ∧
    (∀ (id : Nat) (bytes buf : List Nat),
      encode_into (.ProxyData ⟨id, bytes⟩) buf =
        .ok (buf ++ encodeFrame (.ProxyData ⟨id, bytes⟩))) := by
  constructor
  · intro id bytes hid hlen
    have hwf : (SocketPacket.ProxyData ⟨id, bytes⟩).wfB = true := by
      simp only [SocketPacket.wfB, decide_eq_true_eq]
      refine ⟨hid, by omega⟩
    have hsafe : frameSafe (.ProxyData ⟨id, bytes⟩) := by
      simp only [frameSafe, payloadLen]
      omega
    have h := decode_from_encodeFrame _ hwf hsafe []
    rwa [List.append_nil] at h
  · intro id bytes buf
    exact encode_into_ok _ _

/-- Witness for C2 at a concrete input. -/
theorem C2_fastpath_witness :
    decode_from (encodeFrame (.ProxyData ⟨5, [1, 2, 3]⟩)) =
      (.ok (.ProxyData ⟨5, [1, 2, 3]⟩), []) :=
  C2_fastpath_amended.1 5 [1, 2, 3] (by decide) (by decide)

/-- One decode step that panics ends the stream-decoding loop at once. -/
theorem decodeLoop_succ_panic (fuel : Nat) (buf b : List Nat)
    (h : decode_from buf = (.panic, b)) :
    decodeLoop (fuel + 1) buf = ([], .panicked, b) := by
  simp only [decodeLoop, h]

/-- Claim C3 (as stated, refuted at a concrete input): for the stream of
one oversized `ProxyError` frame and the split point at the full stream
length, the frame is wholly contained in the prefix, yet decoding the
prefix yields no frame at all (the decoder panics on it). -/
theorem C3_incremental_counterexample :
    framesContained [.ProxyError (List.replicate 32756 98)]
        ((encodeStream [.ProxyError (List.replicate 32756 98)]).length) =
      [.ProxyError (List.replicate 32756 98)] ∧
    (decodeStream
        (encodeStream [.ProxyError (List.replicate 32756 98)])).1 = [] := by
  constructor
  · obtain ⟨R, hRdef, hRlen⟩ : ∃ R : List Nat,
        R = List.replicate 32756 98 ∧ R.length = 32756 :=
      ⟨_, rfl, List.length_replicate 32756 98⟩
    rw [← hRdef]
    have hsz : frameSize (.ProxyError R) = 32770 := by
      simp only [frameSize, payloadLen, bincodeSerialize, List.length_append,
        u32le_length, u64le_length, hRlen]
    have hlen : (encodeStream [SocketPacket.ProxyError R]).length = 32770 := by
      simp only [encodeStream, List.append_nil, encodeFrame_length, payloadLen,
        bincodeSerialize, List.length_append, u32le_length, u64le_length, hRlen]
    rw [hlen]
    rw [show framesContained [SocketPacket.ProxyError R] 32770 =
        if frameSize (.ProxyError R) ≤ 32770 then [SocketPacket.ProxyError R]
        else [] from by rw [framesContained, framesContained]]
    rw [if_pos (by rw [hsz])]
  · have hbuf : encodeStream [SocketPacket.ProxyError
        (List.replicate 32756 98)] = encodeFrame
        (.ProxyError (List.replicate 32756 98)) := by
      rw [encodeStream, encodeStream, List.append_nil]
    rw [hbuf, replicate_32756_serial_shape]
    generalize 0 :: 0 :: (u64le 32756 ++ List.replicate 32756 98) = T
    rw [decodeStream, decodeLoop_succ_panic _ _ _ (decode_from_start32768 7 0 T)]

/-- Claim C3 (amended): decoding is incremental and restartable for
well-formed frame-safe traffic: (i) with fewer than `2 + length` bytes
buffered, `decode_from` returns need-more and leaves the buffer
untouched; (ii) a successful decode consumes exactly `2 + length` bytes;
(iii) for every stream of well-formed frame-safe messages and every split
point `k`, decoding the `k`-byte prefix yields exactly the messages whose
frames lie wholly within the prefix, and nothing else. -/
theorem C3_incremental_amended :
    (∀ buf : List Nat, buf.length < 2 + announcedLen buf →
      decode_from buf = (.needMore, buf)) ∧
    (∀ (buf : List Nat) (p : SocketPacket) (rest : List Nat),
      decode_from buf = (.ok p, rest) →
        2 + announcedLen buf ≤ buf.length ∧
        rest = buf.drop (2 + announcedLen buf)) ∧
    (∀ msgs : List SocketPacket, (∀ m ∈ msgs, m.wfB = true ∧ frameSafe m) →
      ∀ k : Nat, k ≤ (encodeStream msgs).length →
        (decodeStream ((encodeStream msgs).take k)).1 =
          framesContained msgs k) :=
  ⟨decode_from_needMore, decode_from_ok_consumed, decodeStream_take⟩

/-- Witness for C3 at a concrete input: a two-message stream split after
five bytes contains exactly the first frame. -/
theorem C3_incremental_witness :
    (decodeStream ((encodeStream
        [SocketPacket.ProxyPing 1, .ProxyPong 2]).take 9)).1 =
      framesContained [SocketPacket.ProxyPing 1, .ProxyPong 2] 9 :=
  C3_incremental_amended.2.2 [.ProxyPing 1, .ProxyPong 2] (by decide) 9
    (by decide)

/-- Claim C4: `decode_from` can never return `PacketError::TooLong`: the
announced length is the start word masked to 15 bits, at most 32 767, so
the `length > MAXIMUM_PACKET_SIZE` (64 KiB) rejection is unreachable. -/
theorem C4_tooLong_unreachable (buf : List Nat) :
    ((decode_from buf).1 == DecodeResult.err PacketError.tooLong) = false := by
  rcases buf with _ | ⟨b0, _ | ⟨b1, t⟩⟩
  · rfl
  · rfl
  · simp only [decode_from]
    split
    · rfl
    · split
      · exfalso
        rename_i h1 h2
        simp only [MAXIMUM_PACKET_SIZE] at h2
        have hle : b0 * 256 + b1 &&& 32767 ≤ 32767 := Nat.and_le_right
        omega
      · split
        · split
          · split
            · rfl
            · rfl
          · rfl
        · split
          · rfl
          · rfl

/-- Claim C5: the slow path ends in `bincode::deserialize(..).unwrap()`,
which panics on a malformed payload instead of returning an error; the
three-byte frame `[0x00, 0x01, 0xFF]` (length 1, payload `0xFF`) is a
concrete input that reaches the panic. -/
theorem C5_malformed_panics :
    decode_from [0, 1, 255] = (.panic, [0, 1, 255]) := by decide

/-! ## The per-session slot table (server/src/proxy_handler.rs: Distributor)

`clients_id` is a fixed array of `MAXIMUM_CLIENTS = 255` optional senders;
a sender (`UnboundedSender<MinecraftDataPacket>`) is carried as an opaque
`Nat` token. -/

/-- `shared/src/config.rs`: `MAXIMUM_CLIENTS = 255`. -/
def MAXIMUM_CLIENTS : Nat := 255

/-- `Distributor { clients_id: [Option<Sender>; MAXIMUM_CLIENTS] }`. -/
structure Distributor where
  clients_id : List (Option Nat)
deriving DecidableEq

/-- `Distributor::default()`: every slot empty. -/
def Distributor.default : Distributor :=
  ⟨List.replicate MAXIMUM_CLIENTS none⟩

/-- `shared/src/addressing.rs`: the `DistributorError` variants the
embedded operations produce (string payloads elided). -/
inductive DistributorError
  | clientNotFound
  | serverNotFound
  | serverAlreadyConnected
  | serverNotConnected
  | authError
  | timeout
  | wrongPacket
  | tooManyClients
deriving DecidableEq

/-- Index of the first `None` slot (the scan inside `Distributor::insert`). -/
def distributorFirstFree : List (Option Nat) → Option Nat
  | [] => none
  | none :: _ => some 0
  | some _ :: rest => (distributorFirstFree rest).map (· + 1)

/-- `Distributor::insert`: write `tx` into the first empty slot and return
its index, or `TooManyClients` when the table is full. -/
def distributorInsert (d : Distributor) (tx : Nat) :
    Except DistributorError (Nat × Distributor) :=
  match distributorFirstFree d.clients_id with
  | some id => .ok (id, ⟨d.clients_id.set id (some tx)⟩)
  | none => .error .tooManyClients

/-- `Distributor::remove_by_id`: `clients_id.get_mut(id)` succeeds for
every in-range index — occupied or not — so the function returns `true`
("existed", says its doc comment) whenever `id < MAXIMUM_CLIENTS`, and
clears the slot with `Option::take`. -/
def remove_by_id (d : Distributor) (id : Nat) : Bool × Distributor :=
  if id < d.clients_id.length then (true, ⟨d.clients_id.set id none⟩)
  else (false, d)

/-- `Distributor::get_by_id`: `clients_id.get(id).and_then(|x| x.as_ref())`:
`none` when the index is out of range or the slot is empty. -/
def get_by_id (d : Distributor) (id : Nat) : Option Nat :=
  (d.clients_id.get? id).bind (fun inner => inner)

/-- `proxy_handler.rs`: the `ClientToProxy` commands the writer task
receives; channel endpoints are opaque `Nat` tokens, and the oneshot reply
of `AddMinecraftClient` is modelled by the emitted `ProxyJoin` id. -/
inductive ClientToProxyM
  | packet (id : Nat) (pkg : List Nat)
  | addMinecraftClient (tx : Nat)
  | answerPingPacket (n : Nat)
  | removeMinecraftClient (id : Nat)
deriving DecidableEq

/-- One iteration of `ProxyClient::handle_writer` on one command: `none`
models the writer task returning (insert failed / too many clients);
otherwise the optional `SocketPacket` is what is fed to the wire, and the
`Distributor` is the slot table afterwards. -/
def handle_writer_step (d : Distributor) :
    ClientToProxyM → Option (Option SocketPacket × Distributor)
  | .addMinecraftClient tx =>
      match distributorInsert d tx with
      | .ok (cid, d2) => some (some (.ProxyJoin cid), d2)
      | .error _ => none
  | .packet id pkg => some (some (.ProxyData ⟨id, pkg⟩), d)
  | .answerPingPacket n => some (some (.ProxyPong n), d)
  | .removeMinecraftClient id =>
      let r := remove_by_id d id
      if r.1 then some (some (.ProxyDisconnect id), r.2)
      else some (none, r.2)

/-- One iteration of `ProxyClient::handle_reader` on one inbound packet:
the slot table afterwards, and the forward target (sender token, bytes)
when a `ProxyData` frame finds its slot occupied; `none` means the frame
was dropped or needed no forwarding. -/
def handle_reader_step (d : Distributor) :
    SocketPacket → Distributor × Option (Nat × List Nat)
  | .ProxyDisconnect cid => ((remove_by_id d cid).2, none)
  | .ProxyData p =>
      match get_by_id d p.client_id with
      | some tx => (d, some (tx, p.data))
      | none => (d, none)
  | _ => (d, none)

/-! ## Claims C6 and C10: the slot table -/

set_option maxRecDepth 8192 in
/-- Claim C6 (code bug, shown at a concrete input): slot 3 of a fresh
`Distributor` is empty, yet `RemoveMinecraftClient(3)` emits
`ProxyDisconnect(3)` anyway and leaves the table unchanged — so the same
command emits again every time it is processed. `remove_by_id` returns
true for every in-range id regardless of occupancy, despite its
"Returns true if existed" doc comment and the writer's "we don't want
infinite acks" intent. -/
theorem C6_disconnect_on_empty_slot :
    get_by_id Distributor.default 3 = none ∧
    handle_writer_step Distributor.default (.removeMinecraftClient 3) =
      some (some (.ProxyDisconnect 3), Distributor.default) := by
  constructor
  · decide
  · decide

/-- Claim C10: the slot table is total over every wire-supplied id:
out-of-range lookups return `None` and out-of-range removals return
`false` leaving the table unchanged; an empty in-range slot also looks up
as `None`; a `ProxyData` frame whose slot is empty is dropped without
forwarding; and a hostile `ProxyDisconnect` only ever clears a slot. -/
theorem C10_slot_table_total :
    (∀ (d : Distributor) (id : Nat), d.clients_id.length = MAXIMUM_CLIENTS →
      MAXIMUM_CLIENTS ≤ id →
        get_by_id d id = none ∧ remove_by_id d id = (false, d)) ∧
    (∀ (d : Distributor) (id : Nat), d.clients_id.get? id = some none →
      get_by_id d id = none) ∧
    (∀ (d : Distributor) (p : ProxyDataPacket), get_by_id d p.client_id = none →
      handle_reader_step d (.ProxyData p) = (d, none)) ∧
    (∀ (d : Distributor) (id : Nat),
      handle_reader_step d (.ProxyDisconnect id) = ((remove_by_id d id).2, none)) := by
  refine ⟨?_, ?_, ?_, ?_⟩
  · intro d id hlen hid
    constructor
    · unfold get_by_id
      rw [List.get?_eq_none.mpr (by omega)]
      rfl
    · unfold remove_by_id
      rw [if_neg (by omega)]
  · intro d id h
    unfold get_by_id
    rw [h]
    rfl
  · intro d p h
    simp only [handle_reader_step, h]
  · intro d id
    rfl

set_option maxRecDepth 8192 in
/-- Witness for C10 at a concrete input: id 300 on a fresh table. -/
theorem C10_slot_table_witness :
    get_by_id Distributor.default 300 = none ∧
      remove_by_id Distributor.default 300 = (false, Distributor.default) :=
  C10_slot_table_total.1 Distributor.default 300 (by decide) (by decide)

/-! ## The hostname registry (server/src/register.rs)

The `HashMap<ServerHostname, Tx>` behind the `RwLock` is carried as an
association list keyed by the hostname's character sequence; a `Tx`
channel sender is an opaque `Nat` token. The `RwLock` write guard makes
`add_server`'s check-and-insert one atomic step, which is exactly one
application of the pure function below. -/

/-- The characters of the literal `"random-"`. -/
def randomTag : List Char := ['r', 'a', 'n', 'd', 'o', 'm', '-']

/-- `str::trim_end_matches(".")`: drop every trailing `'.'`. -/
def trimEndDots (h : List Char) : List Char :=
  (h.reverse.dropWhile (· == '.')).reverse

/-- `str::split_once('.')` keeping only the part after the first dot. -/
def splitOnceAfterDot : List Char → Option (List Char)
  | [] => none
  | c :: rest => if c = '.' then some rest else splitOnceAfterDot rest

/-- `register.rs`: `clean_up_hostname` — strip trailing dots; if the
result starts with `random-`, drop everything up to and including the
first dot (empty if there is none). -/
def clean_up_hostname (h : List Char) : List Char :=
  let h2 := trimEndDots h
  if randomTag.isPrefixOf h2 then (splitOnceAfterDot h2).getD []
  else h2

/-- `servers.contains_key(hostname)`. -/
def registerContains (reg : List (List Char × Nat)) (h : List Char) : Bool :=
  reg.any (fun e => e.1 == h)

/-- `Register::get_server` / `servers.get(hostname).cloned()`. -/
def get_server (reg : List (List Char × Nat)) (h : List Char) : Option Nat :=
  (reg.find? (fun e => e.1 == h)).map (·.2)

/-- `Register::add_server`: atomic check-and-insert under the write
lock — error and no change when the hostname is present, insert
otherwise. -/
def add_server (reg : List (List Char × Nat)) (h : List Char) (tx : Nat) :
    Except DistributorError (List (List Char × Nat)) :=
  if registerContains reg h then .error .serverAlreadyConnected
  else .ok ((h, tx) :: reg)

/-- `Register::remove_server` / `servers.remove(hostname)`. -/
def remove_server (reg : List (List Char × Nat)) (h : List Char) :
    List (List Char × Nat) :=
  reg.filter (fun e => !(e.1 == h))

/-- `process_socket.rs` (`register.lock().await.servers.get(&packet.hostname)`):
the registry key used for an inbound Minecraft client is the sniffed
hello hostname exactly as transmitted. -/
def lookup_for_minecraft_client (reg : List (List Char × Nat))
    (helloHostname : List Char) : Option Nat :=
  get_server reg helloHostname

/-- `proxy_handler.rs` (`self.register.add_server(&self.hostname, ..)`
with `hostname: hello_packet.hostname.clone()` from `ProxyClient::new`):
the registry key a proxy client registers under is the hello hostname
exactly as transmitted. -/
def register_for_proxy (reg : List (List Char × Nat)) (helloHostname : List Char)
    (tx : Nat) : Except DistributorError (List (List Char × Nat)) :=
  add_server reg helloHostname tx

/-! ## Claims C7 and C8: the registry -/

/-- Claim C7: `add_server` is an atomic check-and-insert: it errors with
`ServerAlreadyConnected` exactly when the hostname is present (leaving
the map untouched — no new map is produced), inserts and returns `Ok`
otherwise, preserves at-most-one-entry-per-hostname, and of two
registrations for the same free hostname the first returns `Ok` and the
second `ServerAlreadyConnected`. -/
theorem C7_register_check_and_insert :
    (∀ (reg : List (List Char × Nat)) (h : List Char) (tx : Nat),
      registerContains reg h = true →
        add_server reg h tx = .error .serverAlreadyConnected) ∧
    (∀ (reg : List (List Char × Nat)) (h : List Char) (tx : Nat),
      registerContains reg h = false →
        add_server reg h tx = .ok ((h, tx) :: reg)) ∧
    (∀ (reg reg2 : List (List Char × Nat)) (h : List Char) (tx : Nat),
      (reg.map Prod.fst).Nodup → add_server reg h tx = .ok reg2 →
        (reg2.map Prod.fst).Nodup) ∧
    (∀ (reg reg2 : List (List Char × Nat)) (h : List Char) (t1 t2 : Nat),
      add_server reg h t1 = .ok reg2 →
        add_server reg2 h t2 = .error .serverAlreadyConnected) := by
  have hmem : ∀ (reg : List (List Char × Nat)) (h : List Char),
      registerContains reg h = false → h ∉ reg.map Prod.fst := by
    intro reg h hc hmem
    rcases List.mem_map.mp hmem with ⟨e, he, hfst⟩
    have : registerContains reg h = true := by
      unfold registerContains
      rw [List.any_eq_true]
      exact ⟨e, he, by rw [hfst]; exact beq_self_eq_true h⟩
    rw [this] at hc
    cases hc
  have hok : ∀ (reg reg2 : List (List Char × Nat)) (h : List Char) (tx : Nat),
      add_server reg h tx = .ok reg2 →
        registerContains reg h = false ∧ reg2 = (h, tx) :: reg := by
    intro reg reg2 h tx hadd
    unfold add_server at hadd
    by_cases hc : registerContains reg h = true
    · rw [if_pos hc] at hadd
      cases hadd
    · rw [if_neg hc] at hadd
      simp only [Except.ok.injEq] at hadd
      exact ⟨by simpa using hc, hadd.symm⟩
  refine ⟨?_, ?_, ?_, ?_⟩
  · intro reg h tx hc
    unfold add_server
    rw [if_pos hc]
  · intro reg h tx hc
    unfold add_server
    rw [if_neg (by simp [hc])]
  · intro reg reg2 h tx hnd hadd
    obtain ⟨hc, rfl⟩ := hok reg reg2 h tx hadd
    simp only [List.map_cons]
    exact List.nodup_cons.mpr ⟨hmem reg h hc, hnd⟩
  · intro reg reg2 h t1 t2 hadd
    obtain ⟨hc, rfl⟩ := hok reg reg2 h t1 hadd
    unfold add_server
    rw [if_pos (by simp [registerContains])]

/-- Witness for C7 at a concrete input. -/
theorem C7_register_witness :
    add_server [(['a'], 1)] ['a'] 2 = .error .serverAlreadyConnected :=
  C7_register_check_and_insert.1 [(['a'], 1)] ['a'] 2 (by decide)

/-- Claim C8 (as stated, refuted at a concrete input): with hostname `h`
registered, an external client targeting `random-1.h.` is looked up
under the raw name and misses, although the cleaned form is registered:
the lookup key is not the cleaned one. -/
theorem C8_cleaning_counterexample :
    clean_up_hostname ['r', 'a', 'n', 'd', 'o', 'm', '-', '1', '.', 'h', '.'] =
      ['h'] ∧
    lookup_for_minecraft_client [(['h'], 0)]
      ['r', 'a', 'n', 'd', 'o', 'm', '-', '1', '.', 'h', '.'] = none ∧
    (lookup_for_minecraft_client [(['h'], 0)]
        ['r', 'a', 'n', 'd', 'o', 'm', '-', '1', '.', 'h', '.'] ==
      get_server [(['h'], 0)] (clean_up_hostname
        ['r', 'a', 'n', 'd', 'o', 'm', '-', '1', '.', 'h', '.'])) = false := by
  refine ⟨by decide, by decide, by decide⟩

/-- Claim C8 (amended): `clean_up_hostname` exists and behaves as the
spec describes (trailing dots stripped, a leading `random-*` label
dropped — checked on the repository's own test vectors), but neither the
proxy-client registration path nor the external-client lookup path
applies it: both use the hello hostname raw. -/
theorem C8_cleaning_unused :
    (∀ (reg : List (List Char × Nat)) (h : List Char),
      lookup_for_minecraft_client reg h = get_server reg h) ∧
    (∀ (reg : List (List Char × Nat)) (h : List Char) (tx : Nat),
      register_for_proxy reg h tx = add_server reg h tx) ∧
    clean_up_hostname ("random-123123.testawe.random.com".toList) =
      ("testawe.random.com".toList) ∧
    clean_up_hostname ("random-ab12cd.testawe.random.com".toList) =
      ("testawe.random.com".toList) ∧
    clean_up_hostname ("testawe.random.com".toList) =
      ("testawe.random.com".toList) ∧
    clean_up_hostname ("randomtestawe.random.com".toList) =
      ("randomtestawe.random.com".toList) ∧
    clean_up_hostname ("random-123123".toList) = [] :=
  ⟨fun _ _ => rfl, fun _ _ _ => rfl, by decide, by decide, by decide,
    by decide, by decide⟩

/-! ## The Minecraft VarInt codec (shared/src/cursor.rs)

`put_varint`/`get_varint` work on `i32` values; the embedding carries the
32-bit two's-complement bit pattern as a `Nat` below `2 ^ 32`. The loop
masks are `!0x7F_i32 = 0xFFFF_FF80` and `0x7F`/`0x80`. -/

theorem and_mask7_eq_mod (x : Nat) : x &&& 127 = x % 128 := by
  have h := Nat.and_pow_two_sub_one_eq_mod x 7
  norm_num at h
  exact h

theorem and_bit7_of_lt (x : Nat) (h : x < 128) : x &&& 128 = 0 := by
  have h1 : x &&& 128 ≤ x := Nat.and_le_left
  have h2 : (x &&& 128) &&& 127 = 0 := by
    rw [Nat.and_assoc]
    have hc : (128 : Nat) &&& 127 = 0 := by decide
    rw [hc, Nat.and_zero]
  rw [and_mask7_eq_mod] at h2
  omega

theorem testBit7_of_add (x : Nat) (h : x < 128) :
    (x + 128).testBit 7 = true := by
  rw [Nat.testBit_to_div_mod]
  have : (x + 128) / 2 ^ 7 = 1 := by norm_num; omega
  rw [this]
  decide

theorem and_bit7_of_add (x : Nat) (h : x < 128) :
    (x + 128) &&& 128 = (128 : Nat) := by
  have h1 := Nat.and_two_pow (x + 128) 7
  norm_num [testBit7_of_add x h] at h1
  exact h1

theorem lor_bit7_of_lt (x : Nat) (h : x < 128) : x ||| 128 = x + 128 := by
  apply Nat.eq_of_testBit_eq
  intro i
  rw [Nat.testBit_lor]
  rcases lt_trichotomy i 7 with hi | hi | hi
  · have h32 : (128 : Nat) = 2 ^ 7 := by norm_num
    have hb : (128 : Nat).testBit i = false := by
      rw [h32, Nat.testBit_two_pow]
      simp
      omega
    rw [hb, Bool.or_false]
    rw [Nat.testBit_to_div_mod, Nat.testBit_to_div_mod]
    have hdvd : (2 : Nat) ^ 7 = 2 ^ (7 - i) * 2 ^ i := by
      rw [← pow_add]
      congr 1
      omega
    have hdiv : (x + 128) / 2 ^ i = x / 2 ^ i + 2 ^ (7 - i) := by
      have h15 : (128 : Nat) = 2 ^ (7 - i) * 2 ^ i := by rw [← hdvd]; norm_num
      rw [h15, Nat.add_mul_div_right _ _ (Nat.pos_pow_of_pos i (by norm_num))]
    rw [hdiv]
    have heven : (2 : Nat) ∣ 2 ^ (7 - i) := dvd_pow_self 2 (by omega)
    rcases heven with ⟨c, hc⟩
    rw [hc]
    have hmod : (x / 2 ^ i + 2 * c) % 2 = x / 2 ^ i % 2 := by omega
    rw [hmod]
  · subst hi
    have h32 : (128 : Nat) = 2 ^ 7 := by norm_num
    have hb : (128 : Nat).testBit 7 = true := by
      rw [h32, Nat.testBit_two_pow]
      simp
    rw [hb, testBit7_of_add x h,
      Nat.testBit_lt_two_pow (by norm_num; omega : x < 2 ^ 7)]
    rfl
  · have hxa : (x + 128) < 2 ^ i := by
      have : (2 : Nat) ^ 8 ≤ 2 ^ i := Nat.pow_le_pow_right (by norm_num) (by omega)
      have h16 : (2 : Nat) ^ 8 = 256 := by norm_num
      omega
    have hx : x < 2 ^ i := by omega
    rw [Nat.testBit_lt_two_pow hxa, Nat.testBit_lt_two_pow hx]
    have h32 : (128 : Nat) = 2 ^ 7 := by norm_num
    rw [h32, Nat.testBit_two_pow]
    simp
    omega

theorem nat_and_lor_distrib (x y z : Nat) :
    x &&& (y ||| z) = (x &&& y) ||| (x &&& z) := by
  apply Nat.eq_of_testBit_eq
  intro i
  simp [Nat.testBit_and, Nat.testBit_lor, Bool.and_or_distrib_left]

theorem nat_lor_zero (x : Nat) : x ||| 0 = x := by
  apply Nat.eq_of_testBit_eq
  intro i
  simp [Nat.testBit_lor]

/-- The loop exit test `(value & !0x7F_i32) == 0` holds for a 32-bit
pattern exactly when the value is below 128. -/
theorem and_high_mask_eq_zero_iff (v : Nat) (hv : v < 2 ^ 32) :
    v &&& 4294967168 = 0 ↔ v < 128 := by
  constructor
  · intro h
    have hid : v &&& 4294967295 = v := by
      have h0 := Nat.and_pow_two_sub_one_eq_mod v 32
      norm_num at h0
      rw [h0]
      omega
    have hsplit : (4294967295 : Nat) = 127 ||| 4294967168 := by decide
    have hv2 : v = (v &&& 127) ||| (v &&& 4294967168) := by
      conv_lhs => rw [← hid]
      rw [hsplit, nat_and_lor_distrib]
    rw [h, nat_lor_zero, and_mask7_eq_mod] at hv2
    omega
  · intro h
    have h1 : v &&& 4294967168 ≤ v := Nat.and_le_left
    have h2 : (v &&& 4294967168) &&& 127 = 0 := by
      rw [Nat.and_assoc]
      have hc : (4294967168 : Nat) &&& 127 = 0 := by decide
      rw [hc, Nat.and_zero]
    rw [and_mask7_eq_mod] at h2
    omega

/-- The `for _ in 0..5` body of `CustomCursorWrite::put_varint`: emit the
final byte (`value as u8`) when no bits above the low 7 remain, else a
continuation byte and the pattern logically shifted right by 7
(`((value as u32) >> 7) as i32`). -/
def put_varint_loop : Nat → Nat → List Nat
  | 0, _ => []
  | fuel + 1, value =>
      if value &&& 4294967168 = 0 then [value % 256]
      else (value &&& 127 ||| 128) :: put_varint_loop fuel (value >>> 7)

/-- `put_varint` on a 32-bit two's-complement pattern. -/
def put_varint (value : Nat) : List Nat := put_varint_loop 5 value

/-- The `for _ in 0..5` body of `CustomCursorRead::get_varint`:
`Ok(None)` when the buffer runs dry, the accumulated value when a byte's
continuation bit is clear, `Err(NotValid)` after five continuation
bytes. The i32 shift discards bits above 31, hence the `% 2 ^ 32`. -/
def get_varint_loop : Nat → Nat → Nat → List Nat →
    Except PacketError (Option (Nat × List Nat))
  | 0, _, _, _ => .error .notValid
  | fuel + 1, pos, acc, buf =>
      match buf with
      | [] => .ok none
      | b :: rest =>
          let acc2 := acc ||| ((b &&& 127) <<< pos) % 2 ^ 32
          if b &&& 128 = 0 then .ok (some (acc2, rest))
          else get_varint_loop fuel (pos + 7) acc2 rest

/-- `get_varint` from the front of a buffer, yielding the decoded 32-bit
pattern and the remaining bytes. -/
def get_varint (buf : List Nat) :
    Except PacketError (Option (Nat × List Nat)) :=
  get_varint_loop 5 0 0 buf

theorem put_varint_loop_length (fuel : Nat) : ∀ v : Nat,
    (put_varint_loop fuel v).length ≤ fuel := by
  induction fuel with
  | zero => intro v; simp [put_varint_loop]
  | succ f ih =>
      intro v
      rw [put_varint_loop]
      split
      · simp
      · simp only [List.length_cons]
        have := ih (v >>> 7)
        omega

theorem nat_lor_mul_pow (a b k : Nat) (ha : a < 2 ^ k) :
    a ||| b * 2 ^ k = a + b * 2 ^ k := by
  apply Nat.eq_of_testBit_eq
  intro i
  rw [Nat.testBit_lor]
  rcases lt_or_ge i k with hi | hi
  · have hk : (2 : Nat) ^ k = 2 ^ (k - i) * 2 ^ i := by
      rw [← pow_add]
      congr 1
      omega
    have hpow : b * 2 ^ k / 2 ^ i = b * 2 ^ (k - i) := by
      rw [hk, ← Nat.mul_assoc]
      exact Nat.mul_div_cancel _ (Nat.pos_pow_of_pos i (by norm_num))
    obtain ⟨c, hc⟩ : (2 : Nat) ∣ 2 ^ (k - i) := dvd_pow_self 2 (by omega)
    have hbf : (b * 2 ^ k).testBit i = false := by
      rw [Nat.testBit_to_div_mod, hpow, hc]
      have hev : b * (2 * c) = 2 * (b * c) := by ring
      rw [hev]
      have hz : 2 * (b * c) % 2 = 0 := Nat.mul_mod_right 2 (b * c)
      simp [hz]
    rw [hbf, Bool.or_false, Nat.testBit_to_div_mod, Nat.testBit_to_div_mod]
    have hdiv : (a + b * 2 ^ k) / 2 ^ i = a / 2 ^ i + b * 2 ^ (k - i) := by
      rw [hk, ← Nat.mul_assoc,
        Nat.add_mul_div_right _ _ (Nat.pos_pow_of_pos i (by norm_num))]
    rw [hdiv, hc]
    have hev : b * (2 * c) = 2 * (b * c) := by ring
    rw [hev]
    have hmod : (a / 2 ^ i + 2 * (b * c)) % 2 = a / 2 ^ i % 2 := by omega
    rw [hmod]
  · have haf : a.testBit i = false :=
      Nat.testBit_lt_two_pow (lt_of_lt_of_le ha
        (Nat.pow_le_pow_right (by norm_num) hi))
    rw [haf, Bool.false_or, Nat.testBit_to_div_mod, Nat.testBit_to_div_mod]
    have hk : (2 : Nat) ^ i = 2 ^ (i - k) * 2 ^ k := by
      rw [← pow_add]
      congr 1
      omega
    have hlt : b * 2 ^ k % 2 ^ i + a < 2 ^ i := by
      have hmm : b * 2 ^ k % 2 ^ i = b % 2 ^ (i - k) * 2 ^ k := by
        rw [hk, Nat.mul_mod_mul_right]
      have hble : b % 2 ^ (i - k) * 2 ^ k ≤ (2 ^ (i - k) - 1) * 2 ^ k := by
        apply Nat.mul_le_mul_right
        have := Nat.mod_lt b (Nat.pos_pow_of_pos (i - k) (by norm_num : 0 < 2))
        omega
      rw [Nat.sub_mul, one_mul, ← hk] at hble
      have hk0 : (2 : Nat) ^ k ≤ 2 ^ i := Nat.pow_le_pow_right (by norm_num) hi
      omega
    have hdiv : (a + b * 2 ^ k) / 2 ^ i = b * 2 ^ k / 2 ^ i := by
      have hdm := Nat.div_add_mod (b * 2 ^ k) (2 ^ i)
      have hsplit : a + b * 2 ^ k =
          (b * 2 ^ k % 2 ^ i + a) + 2 ^ i * (b * 2 ^ k / 2 ^ i) := by omega
      rw [hsplit, Nat.add_mul_div_left _ _ (Nat.pos_pow_of_pos i (by norm_num : 0 < 2)),
        Nat.div_eq_of_lt hlt, Nat.zero_add]
    rw [hdiv]

theorem varint_loop_roundtrip (f : Nat) : ∀ (v acc pos : Nat) (rest : List Nat),
    1 ≤ f → f ≤ 5 → pos = 7 * (5 - f) → v < 2 ^ (32 - pos) → acc < 2 ^ pos →
    get_varint_loop f pos acc (put_varint_loop f v ++ rest) =
      .ok (some (acc + v * 2 ^ pos, rest)) := by
  induction f with
  | zero => intro v acc pos rest h1; omega
  | succ f ih =>
      intro v acc pos rest h1 h5 hpos hv hacc
      have hv32 : v < 2 ^ 32 := by
        have hle : (2 : Nat) ^ (32 - pos) ≤ 2 ^ 32 :=
          Nat.pow_le_pow_right (by norm_num) (by omega)
        omega
      rw [put_varint_loop]
      by_cases hsmall : v < 128
      · rw [if_pos ((and_high_mask_eq_zero_iff v hv32).mpr hsmall)]
        have hb : v % 256 = v := Nat.mod_eq_of_lt (by omega)
        rw [hb]
        simp only [List.cons_append, List.nil_append, get_varint_loop]
        have hband : v &&& 127 = v := by
          rw [and_mask7_eq_mod]
          omega
        have hbbit : v &&& 128 = 0 := and_bit7_of_lt v hsmall
        rw [hband, hbbit, if_pos rfl]
        have hshift : (v <<< pos) % 2 ^ 32 = v * 2 ^ pos := by
          rw [Nat.shiftLeft_eq]
          apply Nat.mod_eq_of_lt
          have hstep : v * 2 ^ pos < 2 ^ (32 - pos) * 2 ^ pos :=
            Nat.mul_lt_mul_of_lt_of_le hv (le_refl _)
              (Nat.pos_pow_of_pos pos (by norm_num))
          have hpow : (2 : Nat) ^ (32 - pos) * 2 ^ pos = 2 ^ 32 := by
            rw [← pow_add]
            congr 1
            omega
          omega
        rw [hshift, nat_lor_mul_pow _ _ _ hacc]
      · rw [if_neg (fun hc => hsmall ((and_high_mask_eq_zero_iff v hv32).mp hc))]
        have hf1 : 1 ≤ f := by
          rcases Nat.eq_zero_or_pos f with hf0 | hf0
          · exfalso
            subst hf0
            have hp : pos = 28 := by omega
            rw [hp] at hv
            norm_num at hv
            omega
          · exact hf0
        simp only [List.cons_append, get_varint_loop]
        have hm7 : v % 128 < 128 := Nat.mod_lt v (by norm_num)
        have hbyte : v &&& 127 ||| 128 = v % 128 + 128 := by
          rw [and_mask7_eq_mod, lor_bit7_of_lt _ hm7]
        rw [hbyte]
        have hbm : (v % 128 + 128) &&& 127 = v % 128 := by
          rw [and_mask7_eq_mod]
          omega
        have hbbit : (v % 128 + 128) &&& 128 = 128 := and_bit7_of_add _ hm7
        rw [hbm, hbbit, if_neg (by omega)]
        have hpos21 : pos ≤ 21 := by omega
        have hshift : ((v % 128) <<< pos) % 2 ^ 32 = v % 128 * 2 ^ pos := by
          rw [Nat.shiftLeft_eq]
          apply Nat.mod_eq_of_lt
          have h1 : v % 128 * 2 ^ pos < 2 ^ 7 * 2 ^ pos :=
            Nat.mul_lt_mul_of_lt_of_le (by norm_num; omega) (le_refl _)
              (Nat.pos_pow_of_pos pos (by norm_num))
          have h2 : (2 : Nat) ^ 7 * 2 ^ pos = 2 ^ (7 + pos) := by
            rw [← pow_add]
          have h3 : (2 : Nat) ^ (7 + pos) ≤ 2 ^ 32 :=
            Nat.pow_le_pow_right (by norm_num) (by omega)
          omega
        rw [hshift, nat_lor_mul_pow _ _ _ hacc]
        have hvs : v >>> 7 = v / 128 := by
          rw [Nat.shiftRight_eq_div_pow]
        rw [hvs]
        have hacc2 : acc + v % 128 * 2 ^ pos < 2 ^ (pos + 7) := by
          have hb1 : v % 128 * 2 ^ pos ≤ 127 * 2 ^ pos :=
            Nat.mul_le_mul_right _ (by omega)
          have hb2 : (2 : Nat) ^ (pos + 7) = 2 ^ pos * 128 := by
            rw [pow_add]
            norm_num
          have hb3 : (127 : Nat) * 2 ^ pos = 2 ^ pos * 127 := by ring
          omega
        have hv2 : v / 128 < 2 ^ (32 - (pos + 7)) := by
          have hd : v / 128 < 2 ^ (32 - pos) / 2 ^ 7 + 1 := by
            have := Nat.div_le_div_right (c := 128) (Nat.le_of_lt hv)
            norm_num at this ⊢
            omega
          have he : (2 : Nat) ^ (32 - pos) / 2 ^ 7 = 2 ^ (32 - pos - 7) := by
            rw [Nat.pow_div (by omega) (by norm_num)]
          have hf : 32 - pos - 7 = 32 - (pos + 7) := by omega
          rw [he, hf] at hd
          have hg : v / 128 ≠ 2 ^ (32 - (pos + 7)) := by
            intro heq
            have : v ≥ 2 ^ (32 - (pos + 7)) * 128 := by
              have := Nat.div_mul_le_self v 128
              omega
            have hh : (2 : Nat) ^ (32 - (pos + 7)) * 128 = 2 ^ (32 - pos) := by
              have : (128 : Nat) = 2 ^ 7 := by norm_num
              rw [this, ← pow_add]
              congr 1
              omega
            omega
          omega
        have happ := ih (v / 128) (acc + v % 128 * 2 ^ pos) (pos + 7) rest hf1
          (by omega) (by omega) hv2 hacc2
        rw [happ]
        have hfin : v % 128 * 2 ^ pos + v / 128 * 2 ^ (pos + 7) = v * 2 ^ pos := by
          have h2 : (2 : Nat) ^ (pos + 7) = 2 ^ pos * 128 := by
            rw [pow_add]
            norm_num
          calc v % 128 * 2 ^ pos + v / 128 * 2 ^ (pos + 7)
              = v % 128 * 2 ^ pos + v / 128 * (2 ^ pos * 128) := by rw [h2]
            _ = (v % 128 + 128 * (v / 128)) * 2 ^ pos := by ring
            _ = v * 2 ^ pos := by rw [Nat.mod_add_div]
        have hres : acc + v % 128 * 2 ^ pos + v / 128 * 2 ^ (pos + 7) =
            acc + v * 2 ^ pos := by omega
        rw [hres]

theorem put_varint_length_le (v : Nat) : (put_varint v).length ≤ 5 :=
  put_varint_loop_length 5 v

theorem put_varint_length_pos (v : Nat) : 1 ≤ (put_varint v).length := by
  rw [put_varint, put_varint_loop]
  split
  · simp
  · simp

theorem get_put_varint (v : Nat) (hv : v < 2 ^ 32) (rest : List Nat) :
    get_varint (put_varint v ++ rest) = .ok (some (v, rest)) := by
  have h := varint_loop_roundtrip 5 v 0 0 rest (by norm_num) (by norm_num)
    (by norm_num) (by simpa using hv) (by norm_num)
  show get_varint_loop 5 0 0 (put_varint_loop 5 v ++ rest) = _
  simpa using h

theorem get_varint_step (f pos acc b : Nat) (r : List Nat)
    (hb : b &&& 128 ≠ 0) :
    get_varint_loop (f + 1) pos acc (b :: r) =
      get_varint_loop f (pos + 7) (acc ||| ((b &&& 127) <<< pos) % 2 ^ 32) r := by
  simp only [get_varint_loop]
  rw [if_neg hb]

/-! ## Claim C9: the VarInt codec -/

/-- Claim C9: for every `i32` value, `put_varint` writes between 1 and 5
bytes and `get_varint` applied to that output returns exactly the same
32-bit two's-complement pattern (which stands for `i` itself: unchanged
when `i ≥ 0`, `i + 2^32` when `i < 0`); and five bytes that all carry the
continuation bit are rejected as `NotValid`. -/
theorem C9_varint_bijection :
    (∀ i : Int, -(2 ^ 31) ≤ i → i < 2 ^ 31 →
      1 ≤ (put_varint (i % 2 ^ 32).toNat).length ∧
      (put_varint (i % 2 ^ 32).toNat).length ≤ 5 ∧
      (0 ≤ i → ((i % 2 ^ 32).toNat : Int) = i) ∧
      (i < 0 → ((i % 2 ^ 32).toNat : Int) = i + 2 ^ 32) ∧
      ∀ rest : List Nat, get_varint (put_varint (i % 2 ^ 32).toNat ++ rest) =
        .ok (some ((i % 2 ^ 32).toNat, rest))) ∧
    (∀ (b0 b1 b2 b3 b4 : Nat) (rest : List Nat),
      b0 &&& 128 ≠ 0 → b1 &&& 128 ≠ 0 → b2 &&& 128 ≠ 0 → b3 &&& 128 ≠ 0 →
      b4 &&& 128 ≠ 0 →
      get_varint (b0 :: b1 :: b2 :: b3 :: b4 :: rest) = .error .notValid) := by
  constructor
  · intro i hlo hhi
    have hpat : (i % 2 ^ 32).toNat < 2 ^ 32 := by
      have h1 := Int.emod_nonneg i (show (2 : Int) ^ 32 ≠ 0 by norm_num)
      have h2 := Int.emod_lt_of_pos i (show (0 : Int) < 2 ^ 32 by norm_num)
      omega
    refine ⟨put_varint_length_pos _, put_varint_length_le _, ?_, ?_, ?_⟩
    · intro hpos
      omega
    · intro hneg
      omega
    · intro rest
      exact get_put_varint _ hpat rest
  · intro b0 b1 b2 b3 b4 rest h0 h1 h2 h3 h4
    show get_varint_loop 5 0 0 _ = _
    rw [get_varint_step _ _ _ _ _ h0, get_varint_step _ _ _ _ _ h1,
      get_varint_step _ _ _ _ _ h2, get_varint_step _ _ _ _ _ h3,
      get_varint_step _ _ _ _ _ h4]
    rfl

/-- Witness for C9 at a concrete input: `i = -1` (pattern `0xFFFFFFFF`,
five bytes). -/
theorem C9_varint_witness :
    get_varint (put_varint ((-1 : Int) % 2 ^ 32).toNat ++ []) =
      .ok (some (((-1 : Int) % 2 ^ 32).toNat, [])) :=
  (C9_varint_bijection.1 (-1) (by norm_num) (by norm_num)).2.2.2.2 []
